import Mathlib

/-!
Formal verification of the streaming segmentation controller
`StreamingTranscriber` (file `src/core/transcription.py`) of the
multi-asr-toolkit repository.

Modelling conventions used by the shallow embedding below:

* Raw PCM byte strings are `List ℕ` (`Bytes`); the controller never
  interprets byte values, it only concatenates, slices and counts them.
* Python strings (decoded text, file paths) are `List Char` (`Text`).
* Python floats are exact rationals `ℚ`.
* The external streaming ASR engine and the wall clock are inputs of the
  code, not part of it: the value returned by `streaming_asr.decode()` at
  the i-th window of a call is an oracle `dec i`, the reading of
  `time.monotonic()` at line 202 is `nows i`, and the reading inside
  `_finalize_segment` (line 147) is `fnows i`.  Bytes fed to the engine by
  `accept_pcm16_bytes` are recorded in the `windows` output field.
* The file system is represented by the `written` field: `_write_wav`
  appends the produced path together with the PCM payload it writes.
* The window loop of `stream_transcribe` is embedded with an explicit
  fuel argument so that it is structurally recursive and computable by the
  kernel; every entry point supplies `buf.length + chunk_bytes.natAbs + 1`
  fuel, which is proven sufficient (the position advances by
  `max 1 (chunk_bytes - overlap_bytes) ≥ 1` bytes per iteration), so the
  fuel-exhaustion branch is unreachable.
-/

attribute [local semireducible] Rat.add Rat.sub Rat.mul Rat.inv

namespace MultiAsr

/-- Raw PCM bytes (`bytes` in Python). -/
abbrev Bytes := List ℕ

/-- Python strings (`str`), as character lists. -/
abbrev Text := List Char

/-- Python `int()` applied to an exact rational: truncation toward zero. -/
def pyInt (q : ℚ) : ℤ := q.num.tdiv q.den

/-- Whitespace recognized by Python `str.strip()` (ASCII part). -/
def pySpace (c : Char) : Bool := c ∈ [' ', '\t', '\n', '\r', '\x0b', '\x0c']

/-- Python `str.strip()`: drop whitespace from both ends. -/
def pyStrip (t : Text) : Text :=
  ((t.dropWhile pySpace).reverse.dropWhile pySpace).reverse

/-- Clamp a Python slice bound into `[0, n]`; a negative bound counts from
the end of the sequence. -/
def pyIdx (n : ℕ) (i : ℤ) : ℕ := if i < 0 then ((n : ℤ) + i).toNat else min i.toNat n

/-- Python slicing `l[a:b]`. -/
def pySlice (l : Bytes) (a b : ℤ) : Bytes :=
  (l.take (pyIdx l.length b)).drop (pyIdx l.length a)

/-- The sentence-terminal set `StreamingTranscriber.puncts` (line 48). -/
def puncts : List Char := ['.', '?', '!', '。', '？', '！', ',', '，', ';', '；']

/-- Loop advance `step_size = max(1, self.chunk_bytes - self.overlap_bytes)` (line 189). -/
def pyStep (cb ob : ℤ) : ℕ := (max 1 (cb - ob)).toNat

/-- Python `f"{n:04d}"`: decimal digits left-padded with zeros to width 4. -/
def pad4 (n : ℕ) : Text :=
  let ds := Nat.toDigits 10 n
  List.replicate (4 - ds.length) '0' ++ ds

/-- Path produced by `_write_wav` (lines 116-117):
`os.path.join(out_dir, f"{prefix}_{index:04d}.wav")`. -/
def wavPath (dir pfx : Text) (idx : ℕ) : Text :=
  dir ++ '/' :: (pfx ++ '_' :: (pad4 idx ++ ['.', 'w', 'a', 'v']))

/-- A finalized segment `(seg_start, seg_end, text, audio_path)` (line 152). -/
structure Segment where
  startTime : ℚ
  endTime : ℚ
  text : Text
  audioPath : Option Text
deriving DecidableEq, Repr

/-- The state of a `StreamingTranscriber` instance.  Field names follow the
Python attributes (`_last_partial` is `lastPartialText`, `filename_prefix`
is `prefixName`).  `written` records every WAV file produced by
`_write_wav` (path and PCM payload) and stands for the file system. -/
structure Transcriber where
  chunk_bytes : ℤ
  overlap_bytes : ℤ
  step_time_sec : ℚ
  ring : Bytes
  max_utt_sec : ℚ
  stall_ms : ℚ
  partial_min_interval : ℚ
  min_utt_sec : ℚ
  lastPartialText : Text
  last_change_t : ℚ
  last_emit_t : ℚ
  seg_bytes : List Bytes
  seg_start_time : ℚ
  estimated_end_time : ℚ
  out_dir : Text
  prefixName : Text
  seg_index : ℕ
  written : List (Text × Bytes)
deriving DecidableEq, Repr

/-- Constructor arguments of `StreamingTranscriber.__init__` with the
defaults of the source (lines 51-61). -/
structure Config where
  sample_rate : ℕ := 16000
  chunk_sec : ℚ := 6 / 5
  overlap_sec : ℚ := 1 / 4
  max_utt_sec : ℚ := 6
  stall_ms : ℚ := 900
  partial_min_interval : ℚ := 1 / 4
  min_utt_sec : ℚ := 2
deriving DecidableEq, Repr

/-- Constructor `StreamingTranscriber.__init__` (lines 75-104).  `t0` is the value of
`time.monotonic()` at line 93.  The body computes every derived field
unconditionally: it contains no validation of the configuration.  The
`os.makedirs(out_dir)` call at line 104 is a file-system effect with no
observable state here and is not modelled. -/
def init (cfg : Config) (t0 : ℚ) : Transcriber :=
  let cb := pyInt ((cfg.sample_rate : ℚ) * 2 * cfg.chunk_sec)
  let ob := pyInt ((cfg.sample_rate : ℚ) * 2 * cfg.overlap_sec)
  { chunk_bytes := cb
    overlap_bytes := ob
    step_time_sec := ((cb - ob : ℤ) : ℚ) / ((cfg.sample_rate : ℚ) * 2)
    ring := []
    max_utt_sec := cfg.max_utt_sec
    stall_ms := cfg.stall_ms
    partial_min_interval := cfg.partial_min_interval
    min_utt_sec := cfg.min_utt_sec
    lastPartialText := []
    last_change_t := t0
    last_emit_t := 0
    seg_bytes := []
    seg_start_time := 0
    estimated_end_time := 0
    out_dir := ['a', 'u', 'd', 'i', 'o', 's']
    prefixName := ['s', 'e', 'g']
    seg_index := 1
    written := [] }

/-- Method `_write_wav` (lines 114-124): write the PCM payload under the next
indexed name and advance the index. -/
def writeWav (s : Transcriber) (pcm : Bytes) : Transcriber × Text :=
  let path := wavPath s.out_dir s.prefixName s.seg_index
  ({ s with seg_index := s.seg_index + 1, written := s.written ++ [(path, pcm)] }, path)

/-- Method `_finalize_segment` (lines 126-152).  `now` is the `time.monotonic()`
reading at line 147.  The engine's `reset()` call has no footprint in the
modelled state. -/
def finalizeSegment (s : Transcriber) (t : Text) (now : ℚ) : Transcriber × Option Segment :=
  let pcm := s.seg_bytes.flatten
  if pcm = [] then (s, none)
  else
    let wr := if s.out_dir ≠ [] then
        (let w := writeWav s pcm; (w.1, some w.2))
      else (s, none)
    let segStart := wr.1.seg_start_time
    let segEnd := wr.1.estimated_end_time
    ({ wr.1 with
        seg_start_time := segEnd
        seg_bytes := []
        lastPartialText := []
        last_change_t := now
        last_emit_t := now },
     some ⟨segStart, segEnd, t, wr.2⟩)

/-- Method `flush` (lines 154-167).  `flushDec` is the oracle for the `decode()`
call at line 164, `flushNow` the `time.monotonic()` reading inside the
`_finalize_segment` it triggers. -/
def flush (s : Transcriber) (flushDec : Text) (flushNow : ℚ) : Transcriber × Option Segment :=
  if s.seg_bytes = [] then (s, none)
  else
    let p := if s.ring ≠ [] then ({ s with ring := [] }, pyStrip flushDec)
      else (s, ([] : Text))
    finalizeSegment p.1 p.2 flushNow

/-- Result of one `stream_transcribe` call: final state, emitted partial
text, finalized segment, and the windows fed to the engine (in order). -/
structure LoopOut where
  st : Transcriber
  emitted : Option Text
  finalized : Option Segment
  windows : List Bytes
deriving DecidableEq, Repr

/-- Lines 207-214 of `stream_transcribe`: if the decoded text differs from
the last partial, record it and the change time; under the emission
throttle additionally mark the text as the emitted partial. -/
def updateBlock (now : ℚ) (t : Text) (em : Option Text) (s1 : Transcriber) :
    Transcriber × Option Text :=
  if t ≠ s1.lastPartialText then
    let sA := { s1 with lastPartialText := t, last_change_t := now }
    if pyStrip t ≠ [] ∧ s1.partial_min_interval ≤ now - s1.last_emit_t then
      ({ sA with last_emit_t := now }, some t)
    else (sA, em)
  else (s1, em)

/-- The window loop of `stream_transcribe` (lines 192-237).  One iteration:
slice the window, feed it (recorded in `windows`), advance the audio clock,
read `decode()` and the wall clock, run the partial-update block
(lines 207-214), evaluate the finalize predicate (lines 221-227), then
either finalize and return at once (lines 228-232) or slide the window.
`fuel` is an embedding artifact; all entry points supply enough for the
0-fuel branch to be unreachable (see the termination theorem). -/
def streamLoop (cb ob : ℤ) (dec : ℕ → Text) (nows fnows : ℕ → ℚ) (buf : Bytes) :
    ℕ → ℕ → ℕ → Option Text → Transcriber → LoopOut
  | 0, _, pos, em, s => ⟨{ s with ring := buf.drop pos }, em, none, []⟩
  | fuel + 1, i, pos, em, s =>
    if (pos : ℤ) + cb ≤ (buf.length : ℤ) then
      let piece := pySlice buf (pos : ℤ) ((pos : ℤ) + cb)
      let s1 := { s with estimated_end_time := s.estimated_end_time + s.step_time_sec }
      let now := nows i
      let stripped := pyStrip (dec i)
      let upd := updateBlock now (dec i) em s1
      let s2 := upd.1
      let dur := s2.estimated_end_time - s2.seg_start_time
      if s2.max_utt_sec ≤ dur
          ∨ (s2.stall_ms ≤ (now - s2.last_change_t) * 1000 ∧ s2.min_utt_sec ≤ dur)
          ∨ ((puncts.any fun p => stripped.contains p) = true ∧ 1 < dur) then
        let fr := finalizeSegment s2 stripped (fnows i)
        ⟨{ fr.1 with ring := buf.drop (pos + pyStep cb ob) }, upd.2, fr.2, [piece]⟩
      else
        let r := streamLoop cb ob dec nows fnows buf fuel (i + 1) (pos + pyStep cb ob) upd.2 s2
        { r with windows := piece :: r.windows }
    else ⟨{ s with ring := buf.drop pos }, em, none, []⟩

/-- Method `stream_transcribe` (lines 169-238): an empty chunk delegates to
`flush`; otherwise the chunk is appended verbatim to the utterance buffer,
merged with the carry, and the window loop runs. -/
def streamTranscribe (s : Transcriber) (chunk : Bytes) (dec : ℕ → Text)
    (nows fnows : ℕ → ℚ) (flushDec : Text) (flushNow : ℚ) : LoopOut :=
  if chunk = [] then
    let fr := flush s flushDec flushNow
    ⟨fr.1, none, fr.2, []⟩
  else
    let s1 := { s with seg_bytes := s.seg_bytes ++ [chunk] }
    let buf := s.ring ++ chunk
    streamLoop s.chunk_bytes s.overlap_bytes dec nows fnows buf
      (buf.length + s.chunk_bytes.natAbs + 1) 0 0 none s1

/-- External inputs of one `stream_transcribe` call. -/
structure CallIn where
  chunk : Bytes
  dec : ℕ → Text
  nows : ℕ → ℚ
  fnows : ℕ → ℚ
  flushDec : Text
  flushNow : ℚ

/-- Drive one controller instance through a sequence of calls; collect the
finalized segments in order and the total number of windows processed. -/
def runCalls : Transcriber → List CallIn → Transcriber × List Segment × ℕ
  | s, [] => (s, [], 0)
  | s, c :: cs =>
    let o := streamTranscribe s c.chunk c.dec c.nows c.fnows c.flushDec c.flushNow
    let r := runCalls o.st cs
    (r.1, o.finalized.toList ++ r.2.1, o.windows.length + r.2.2)

/-- Specification-side window-count formula of §4.1:
`floor((L - chunk_bytes)/step_bytes) + 1` when `L ≥ chunk_bytes`, else 0. -/
def countW (L cbN stepN : ℕ) : ℕ := if cbN ≤ L then (L - cbN) / stepN + 1 else 0

/-- Specification-side finalize predicate of §4.3, on the values the code
holds at a window: `estEnd` the already-advanced audio clock, `lastChange`
the (possibly just-updated) change timestamp, `stripped` the stripped
decode output. -/
def finalizeTrigger (maxU stallMs minU : ℚ) (estEnd segStart now lastChange : ℚ)
    (stripped : Text) : Prop :=
  maxU ≤ estEnd - segStart
  ∨ (stallMs ≤ (now - lastChange) * 1000 ∧ minU ≤ estEnd - segStart)
  ∨ ((puncts.any fun p => stripped.contains p) = true ∧ 1 < estEnd - segStart)

instance (maxU stallMs minU estEnd segStart now lastChange : ℚ) (stripped : Text) :
    Decidable (finalizeTrigger maxU stallMs minU estEnd segStart now lastChange stripped) := by
  unfold finalizeTrigger
  infer_instance

/-- Specification-side contiguity chain of §8: each segment starts where
the previous one (or the given origin) ends. -/
def Chained : ℚ → List Segment → Prop
  | _, [] => True
  | t, seg :: rest => seg.startTime = t ∧ Chained seg.endTime rest

/-- Concrete configuration used by concrete evaluations below: 1 Hz sample
rate, 2-second chunks (4 bytes), no overlap, a 100-second `max_utt_sec`. -/
def cfgW : Config :=
  { sample_rate := 1, chunk_sec := 2, overlap_sec := 0, max_utt_sec := 100 }

section Helpers

lemma pyStep_pos (cb ob : ℤ) : 1 ≤ pyStep cb ob := by
  have h : (1 : ℤ) ≤ max 1 (cb - ob) := le_max_left 1 (cb - ob)
  unfold pyStep
  omega

lemma pyStep_eq {cb ob : ℤ} (hob : 0 ≤ ob) (hlt : ob < cb) :
    pyStep cb ob = cb.toNat - ob.toNat := by
  unfold pyStep
  rw [max_eq_right (by omega : (1 : ℤ) ≤ cb - ob)]
  omega

lemma pySlice_eq {l : Bytes} {cb : ℤ} (pos : ℕ) (hcb : 0 ≤ cb)
    (hle : (pos : ℤ) + cb ≤ (l.length : ℤ)) :
    pySlice l pos ((pos : ℤ) + cb) = (l.drop pos).take cb.toNat := by
  unfold pySlice pyIdx
  rw [if_neg (by omega : ¬ ((pos : ℤ) + cb < 0)), if_neg (by omega : ¬ ((pos : ℤ) < 0))]
  have e1 : min ((pos : ℤ) + cb).toNat l.length = pos + cb.toNat := by omega
  have e2 : min ((pos : ℤ)).toNat l.length = pos := by omega
  rw [e1, e2]
  exact (List.take_drop pos cb.toNat l).symm

lemma finalizeSegment_empty (s : Transcriber) (t : Text) (now : ℚ)
    (h : s.seg_bytes.flatten = []) : finalizeSegment s t now = (s, none) := by
  unfold finalizeSegment
  rw [if_pos h]

lemma finalizeSegment_of_ne (s : Transcriber) (t : Text) (now : ℚ)
    (h : ¬ s.seg_bytes.flatten = []) (hd : s.out_dir ≠ []) :
    finalizeSegment s t now =
      ({ s with
          seg_start_time := s.estimated_end_time
          seg_bytes := []
          lastPartialText := []
          last_change_t := now
          last_emit_t := now
          seg_index := s.seg_index + 1
          written := s.written
            ++ [(wavPath s.out_dir s.prefixName s.seg_index, s.seg_bytes.flatten)] },
       some ⟨s.seg_start_time, s.estimated_end_time, t,
         some (wavPath s.out_dir s.prefixName s.seg_index)⟩) := by
  unfold finalizeSegment writeWav
  rw [if_neg h, if_pos hd]

lemma finalizeSegment_of_ne_nodir (s : Transcriber) (t : Text) (now : ℚ)
    (h : ¬ s.seg_bytes.flatten = []) (hd : s.out_dir = []) :
    finalizeSegment s t now =
      ({ s with
          seg_start_time := s.estimated_end_time
          seg_bytes := []
          lastPartialText := []
          last_change_t := now
          last_emit_t := now },
       some ⟨s.seg_start_time, s.estimated_end_time, t, none⟩) := by
  unfold finalizeSegment
  rw [if_neg h, if_neg (by simp [hd] : ¬ s.out_dir ≠ [])]

lemma flush_idle (s : Transcriber) (fd : Text) (fn : ℚ) (h : s.seg_bytes = []) :
    flush s fd fn = (s, none) := by
  unfold flush
  rw [if_pos h]

lemma flush_of_ring_ne (s : Transcriber) (fd : Text) (fn : ℚ)
    (hs : ¬ s.seg_bytes = []) (hr : s.ring ≠ []) :
    flush s fd fn = finalizeSegment { s with ring := [] } (pyStrip fd) fn := by
  simp only [flush, if_neg hs, if_pos hr]

lemma flush_of_ring_empty (s : Transcriber) (fd : Text) (fn : ℚ)
    (hs : ¬ s.seg_bytes = []) (hr : ¬ s.ring ≠ []) :
    flush s fd fn = finalizeSegment s [] fn := by
  simp only [flush, if_neg hs, if_neg hr]

/-- Fields the partial-update block does not change, and the value it gives
to the change timestamp. -/
lemma updateBlock_spec (now : ℚ) (t : Text) (em : Option Text) (s1 : Transcriber) :
    (updateBlock now t em s1).1.chunk_bytes = s1.chunk_bytes
    ∧ (updateBlock now t em s1).1.overlap_bytes = s1.overlap_bytes
    ∧ (updateBlock now t em s1).1.step_time_sec = s1.step_time_sec
    ∧ (updateBlock now t em s1).1.ring = s1.ring
    ∧ (updateBlock now t em s1).1.max_utt_sec = s1.max_utt_sec
    ∧ (updateBlock now t em s1).1.stall_ms = s1.stall_ms
    ∧ (updateBlock now t em s1).1.partial_min_interval = s1.partial_min_interval
    ∧ (updateBlock now t em s1).1.min_utt_sec = s1.min_utt_sec
    ∧ (updateBlock now t em s1).1.seg_bytes = s1.seg_bytes
    ∧ (updateBlock now t em s1).1.seg_start_time = s1.seg_start_time
    ∧ (updateBlock now t em s1).1.estimated_end_time = s1.estimated_end_time
    ∧ (updateBlock now t em s1).1.out_dir = s1.out_dir
    ∧ (updateBlock now t em s1).1.prefixName = s1.prefixName
    ∧ (updateBlock now t em s1).1.seg_index = s1.seg_index
    ∧ (updateBlock now t em s1).1.written = s1.written
    ∧ (updateBlock now t em s1).1.last_change_t
        = (if t ≠ s1.lastPartialText then now else s1.last_change_t) := by
  unfold updateBlock
  split_ifs with h1 h2 <;> simp_all

/-- Configuration-like fields that no part of a call ever changes. -/
def ConstPreserved (s r : Transcriber) : Prop :=
  r.chunk_bytes = s.chunk_bytes ∧ r.overlap_bytes = s.overlap_bytes
  ∧ r.step_time_sec = s.step_time_sec ∧ r.max_utt_sec = s.max_utt_sec
  ∧ r.stall_ms = s.stall_ms ∧ r.partial_min_interval = s.partial_min_interval
  ∧ r.min_utt_sec = s.min_utt_sec ∧ r.out_dir = s.out_dir ∧ r.prefixName = s.prefixName

/-- What a finalize during the window loop guarantees, relative to the
state `s` at loop entry and the entry position `pos`. -/
def FinFacts (buf : Bytes) (cb ob : ℤ) (pos : ℕ) (s : Transcriber) (r : LoopOut) : Prop :=
  ∀ seg, r.finalized = some seg →
    1 ≤ r.windows.length
    ∧ seg.startTime = s.seg_start_time
    ∧ seg.endTime = r.st.estimated_end_time
    ∧ r.st.seg_start_time = seg.endTime
    ∧ r.st.seg_bytes = []
    ∧ r.st.ring = buf.drop (pos + r.windows.length * pyStep cb ob)
    ∧ (s.out_dir = [] → r.st.written = s.written ∧ r.st.seg_index = s.seg_index
        ∧ seg.audioPath = none)
    ∧ (s.out_dir ≠ [] →
        r.st.written = s.written
          ++ [(wavPath s.out_dir s.prefixName s.seg_index, s.seg_bytes.flatten)]
        ∧ r.st.seg_index = s.seg_index + 1
        ∧ seg.audioPath = some (wavPath s.out_dir s.prefixName s.seg_index))

/-- Invariant tying the result of the window loop to the entry state. -/
def LoopInv (buf : Bytes) (cb ob : ℤ) (fuel pos : ℕ) (s : Transcriber) (r : LoopOut) : Prop :=
  ConstPreserved s r.st
  ∧ r.st.estimated_end_time
      = s.estimated_end_time + (r.windows.length : ℚ) * s.step_time_sec
  ∧ r.windows.length ≤ fuel
  ∧ (r.finalized = none →
      r.st.seg_start_time = s.seg_start_time ∧ r.st.seg_bytes = s.seg_bytes
      ∧ r.st.written = s.written ∧ r.st.seg_index = s.seg_index)
  ∧ FinFacts buf cb ob pos s r

lemma streamLoop_facts (cb ob : ℤ) (dec : ℕ → Text) (nows fnows : ℕ → ℚ) (buf : Bytes) :
    ∀ (fuel i pos : ℕ) (em : Option Text) (s : Transcriber),
      LoopInv buf cb ob fuel pos s (streamLoop cb ob dec nows fnows buf fuel i pos em s) := by
  intro fuel
  induction fuel with
  | zero =>
    intro i pos em s
    refine ⟨?_, ?_, ?_, ?_, ?_⟩
    · simp [streamLoop, ConstPreserved]
    · simp [streamLoop]
    · simp [streamLoop]
    · simp [streamLoop]
    · intro seg hseg
      simp [streamLoop] at hseg
  | succ fuel ih =>
    intro i pos em s
    by_cases hg : (pos : ℤ) + cb ≤ (buf.length : ℤ)
    · simp only [streamLoop, if_pos hg]
      obtain ⟨ucb, uob, ust, uring, umax, ustall, upmi, umin, useg, ustart, uest,
        udir, upfx, uidx, uwr, ulct⟩ :=
        updateBlock_spec (nows i) (dec i) em
          { s with estimated_end_time := s.estimated_end_time + s.step_time_sec }
      split_ifs with htr
      · -- finalize at this window
        by_cases hfe : ((updateBlock (nows i) (dec i) em
            { s with estimated_end_time
              := s.estimated_end_time + s.step_time_sec }).1).seg_bytes.flatten = []
        · rw [finalizeSegment_empty _ _ _ hfe]
          refine ⟨?_, ?_, ?_, ?_, ?_⟩
          · simp_all [ConstPreserved]
          · simp only [List.length_cons, List.length_nil]
            rw [uest]
            push_cast
            simp
          · simp
          · intro _
            simp_all
          · intro seg hseg
            simp at hseg
        · by_cases hdir : s.out_dir = []
          · rw [finalizeSegment_of_ne_nodir _ _ _ hfe (by simp_all)]
            refine ⟨?_, ?_, ?_, ?_, ?_⟩
            · simp_all [ConstPreserved]
            · simp only [List.length_cons, List.length_nil]
              rw [uest]
              push_cast
              simp
            · simp
            · intro h
              simp at h
            · intro seg hseg
              simp only [Option.some.injEq] at hseg
              subst hseg
              refine ⟨by simp, by simp [ustart], by simp [uest], by simp [uest], by simp, ?_, ?_, ?_⟩
              · simp
              · intro _
                simp_all
              · intro h
                exact absurd hdir h
          · rw [finalizeSegment_of_ne _ _ _ hfe (by simp_all)]
            refine ⟨?_, ?_, ?_, ?_, ?_⟩
            · simp_all [ConstPreserved]
            · simp only [List.length_cons, List.length_nil]
              rw [uest]
              push_cast
              simp
            · simp
            · intro h
              simp at h
            · intro seg hseg
              simp only [Option.some.injEq] at hseg
              subst hseg
              refine ⟨by simp, by simp [ustart], by simp [uest], by simp [uest], by simp, ?_, ?_, ?_⟩
              · simp
              · intro h
                exact absurd h hdir
              · intro _
                refine ⟨by simp_all, by simp_all, by simp_all⟩
      · -- no finalize: slide the window and recurse
        obtain ⟨IH1, IH2, IH3, IH4, IH5⟩ :=
          ih (i + 1) (pos + pyStep cb ob)
            (updateBlock (nows i) (dec i) em
              { s with estimated_end_time := s.estimated_end_time + s.step_time_sec }).2
            (updateBlock (nows i) (dec i) em
              { s with estimated_end_time := s.estimated_end_time + s.step_time_sec }).1
        refine ⟨?_, ?_, ?_, ?_, ?_⟩
        · unfold ConstPreserved at IH1 ⊢
          obtain ⟨c1, c2, c3, c4, c5, c6, c7, c8, c9⟩ := IH1
          exact ⟨by simp_all [ConstPreserved], by simp_all, by simp_all, by simp_all,
            by simp_all, by simp_all, by simp_all, by simp_all, by simp_all⟩
        · simp only [List.length_cons]
          rw [IH2, uest, ust]
          push_cast
          ring
        · simp only [List.length_cons]
          omega
        · intro hnone
          simp only at hnone
          obtain ⟨n1, n2, n3, n4⟩ := IH4 hnone
          exact ⟨by simp_all, by simp_all, by simp_all, by simp_all⟩
        · intro seg hseg
          simp only at hseg
          obtain ⟨f0, f1, f2, f3, f4, f5, f6, f7⟩ := IH5 seg hseg
          refine ⟨by simp only [List.length_cons]; omega, by simp_all, by simp_all,
            by simp_all, by simp_all, ?_, ?_, ?_⟩
          · simp only [List.length_cons]
            rw [f5]
            congr 1
            ring
          · intro h
            have := f6 (by simp_all)
            simp_all
          · intro h
            have := f7 (by simp_all)
            simp_all
    · simp only [streamLoop, if_neg hg]
      refine ⟨?_, ?_, ?_, ?_, ?_⟩
      · simp [ConstPreserved]
      · simp
      · simp
      · simp
      · intro seg hseg
        simp at hseg

lemma countW_step {rem cbN stepN : ℕ} (hs : 1 ≤ stepN) (hsc : stepN ≤ cbN)
    (hcr : cbN ≤ rem) :
    countW rem cbN stepN = countW (rem - stepN) cbN stepN + 1 := by
  unfold countW
  rw [if_pos hcr]
  by_cases h2 : cbN ≤ rem - stepN
  · rw [if_pos h2, Nat.div_eq_sub_div hs (by omega)]
    have e : rem - cbN - stepN = rem - stepN - cbN := by omega
    rw [e]
  · rw [if_neg h2, Nat.div_eq_of_lt (by omega)]

lemma streamLoop_nofin (cb ob : ℤ) (dec : ℕ → Text) (nows fnows : ℕ → ℚ) (buf : Bytes)
    (hcb : 1 ≤ cb) (hob : 0 ≤ ob) (hlt : ob < cb) :
    ∀ (fuel i pos : ℕ) (em : Option Text) (s : Transcriber),
      buf.length + 1 ≤ fuel + pos →
      s.seg_bytes.flatten ≠ [] →
      (streamLoop cb ob dec nows fnows buf fuel i pos em s).finalized = none →
      (streamLoop cb ob dec nows fnows buf fuel i pos em s).windows.length
          = countW (buf.length - pos) cb.toNat (pyStep cb ob)
      ∧ (∀ j w, (streamLoop cb ob dec nows fnows buf fuel i pos em s).windows.get? j = some w →
          w = (buf.drop (pos + j * pyStep cb ob)).take cb.toNat
          ∧ pos + j * pyStep cb ob + cb.toNat ≤ buf.length)
      ∧ (streamLoop cb ob dec nows fnows buf fuel i pos em s).st.ring
          = buf.drop (pos
              + (streamLoop cb ob dec nows fnows buf fuel i pos em s).windows.length
                * pyStep cb ob) := by
  intro fuel
  induction fuel with
  | zero =>
    intro i pos em s hf hs hnone
    have hcount : countW (buf.length - pos) cb.toNat (pyStep cb ob) = 0 := by
      unfold countW
      rw [if_neg (by omega)]
    refine ⟨by simpa [streamLoop] using hcount.symm, ?_, ?_⟩
    · intro j w hw
      simp [streamLoop] at hw
    · simp [streamLoop]
  | succ fuel ih =>
    intro i pos em s hf hs hnone
    by_cases hg : (pos : ℤ) + cb ≤ (buf.length : ℤ)
    · simp only [streamLoop, if_pos hg] at hnone ⊢
      obtain ⟨ucb, uob, ust, uring, umax, ustall, upmi, umin, useg, ustart, uest,
        udir, upfx, uidx, uwr, ulct⟩ :=
        updateBlock_spec (nows i) (dec i) em
          { s with estimated_end_time := s.estimated_end_time + s.step_time_sec }
      have hfe : ¬ ((updateBlock (nows i) (dec i) em
          { s with estimated_end_time
            := s.estimated_end_time + s.step_time_sec }).1).seg_bytes.flatten = [] := by
        rw [useg]
        simpa using hs
      split_ifs at hnone ⊢ with htr
      · -- a trigger with a non-empty utterance buffer finalizes: contradiction
        exfalso
        by_cases hdir : ((updateBlock (nows i) (dec i) em
            { s with estimated_end_time
              := s.estimated_end_time + s.step_time_sec }).1).out_dir = []
        · rw [finalizeSegment_of_ne_nodir _ _ _ hfe hdir] at hnone
          simp at hnone
        · rw [finalizeSegment_of_ne _ _ _ hfe hdir] at hnone
          simp at hnone
      · obtain ⟨ihc, ihw, ihr⟩ :=
          ih (i + 1) (pos + pyStep cb ob)
            (updateBlock (nows i) (dec i) em
              { s with estimated_end_time := s.estimated_end_time + s.step_time_sec }).2
            (updateBlock (nows i) (dec i) em
              { s with estimated_end_time := s.estimated_end_time + s.step_time_sec }).1
            (by have := pyStep_pos cb ob; omega)
            (by rw [useg]; simpa using hs)
            hnone
      -- arithmetic facts shared below
        have hstep1 : 1 ≤ pyStep cb ob := pyStep_pos cb ob
        have hstepc : pyStep cb ob ≤ cb.toNat := by
          rw [pyStep_eq hob hlt]
          omega
        have hposcb : pos + cb.toNat ≤ buf.length := by omega
        refine ⟨?_, ?_, ?_⟩
        · simp only [List.length_cons, ihc]
          have e : buf.length - (pos + pyStep cb ob) = buf.length - pos - pyStep cb ob := by
            omega
          rw [countW_step hstep1 hstepc (show cb.toNat ≤ buf.length - pos by omega), e]
        · intro j w hw
          match j, hw with
          | 0, hw =>
            simp only [List.get?_cons_zero, Option.some.injEq] at hw
            subst hw
            constructor
            · rw [pySlice_eq pos (by omega) hg]
              simp
            · simpa using hposcb
          | j + 1, hw =>
            simp only [List.get?_cons_succ] at hw
            obtain ⟨hww, hwb⟩ := ihw j w hw
            have e : (j + 1) * pyStep cb ob = j * pyStep cb ob + pyStep cb ob := by ring
            constructor
            · rw [hww]
              congr 2
              omega
            · omega
        · simp only [List.length_cons, ihr]
          congr 1
          ring
    · have hcount : countW (buf.length - pos) cb.toNat (pyStep cb ob) = 0 := by
        unfold countW
        rw [if_neg (by omega)]
      simp only [streamLoop, if_neg hg] at hnone ⊢
      refine ⟨by simpa using hcount.symm, ?_, ?_⟩
      · intro j w hw
        simp at hw
      · simp

lemma streamLoop_fuel_stable (cb ob : ℤ) (dec : ℕ → Text) (nows fnows : ℕ → ℚ)
    (buf : Bytes) :
    ∀ (f1 f2 i pos : ℕ) (em : Option Text) (s : Transcriber),
      buf.length + cb.natAbs + 1 ≤ f1 + pos →
      buf.length + cb.natAbs + 1 ≤ f2 + pos →
      streamLoop cb ob dec nows fnows buf f1 i pos em s
        = streamLoop cb ob dec nows fnows buf f2 i pos em s := by
  intro f1
  induction f1 with
  | zero =>
    intro f2 i pos em s h1 h2
    have hg : ¬ ((pos : ℤ) + cb ≤ (buf.length : ℤ)) := by omega
    cases f2 with
    | zero => rfl
    | succ f2 => simp [streamLoop, hg]
  | succ f1 ih =>
    intro f2 i pos em s h1 h2
    cases f2 with
    | zero =>
      have hg : ¬ ((pos : ℤ) + cb ≤ (buf.length : ℤ)) := by omega
      simp [streamLoop, hg]
    | succ f2 =>
      by_cases hg : (pos : ℤ) + cb ≤ (buf.length : ℤ)
      · have hs := pyStep_pos cb ob
        simp only [streamLoop, if_pos hg]
        rw [ih f2 (i + 1) (pos + pyStep cb ob)
          (updateBlock (nows i) (dec i) em
            { s with estimated_end_time := s.estimated_end_time + s.step_time_sec }).2
          (updateBlock (nows i) (dec i) em
            { s with estimated_end_time := s.estimated_end_time + s.step_time_sec }).1
          (by omega) (by omega)]
      · simp only [streamLoop, if_neg hg]

/-- Per-call facts about `stream_transcribe`, covering both the flush path
(empty chunk) and the windowing path (non-empty chunk). -/
lemma call_spec (s : Transcriber) (chunk : Bytes) (dec : ℕ → Text)
    (nows fnows : ℕ → ℚ) (fd : Text) (fn : ℚ) :
    ConstPreserved s (streamTranscribe s chunk dec nows fnows fd fn).st
    ∧ (streamTranscribe s chunk dec nows fnows fd fn).st.estimated_end_time
        = s.estimated_end_time
          + ((streamTranscribe s chunk dec nows fnows fd fn).windows.length : ℚ)
            * s.step_time_sec
    ∧ ((streamTranscribe s chunk dec nows fnows fd fn).finalized = none →
        (streamTranscribe s chunk dec nows fnows fd fn).st.seg_start_time = s.seg_start_time
        ∧ (streamTranscribe s chunk dec nows fnows fd fn).st.written = s.written
        ∧ (streamTranscribe s chunk dec nows fnows fd fn).st.seg_index = s.seg_index
        ∧ (streamTranscribe s chunk dec nows fnows fd fn).st.seg_bytes
            = (if chunk = [] then s.seg_bytes else s.seg_bytes ++ [chunk]))
    ∧ (chunk = [] → ¬ s.seg_bytes = [] → ¬ s.seg_bytes.flatten = [] →
        (streamTranscribe s chunk dec nows fnows fd fn).finalized.isSome = true)
    ∧ (∀ seg, (streamTranscribe s chunk dec nows fnows fd fn).finalized = some seg →
        seg.startTime = s.seg_start_time
        ∧ seg.endTime = (streamTranscribe s chunk dec nows fnows fd fn).st.seg_start_time
        ∧ seg.endTime = (streamTranscribe s chunk dec nows fnows fd fn).st.estimated_end_time
        ∧ (streamTranscribe s chunk dec nows fnows fd fn).st.seg_bytes = []
        ∧ (chunk ≠ [] →
            (streamTranscribe s chunk dec nows fnows fd fn).st.ring
              = (s.ring ++ chunk).drop
                  ((streamTranscribe s chunk dec nows fnows fd fn).windows.length
                    * pyStep s.chunk_bytes s.overlap_bytes))
        ∧ (s.out_dir = [] →
            (streamTranscribe s chunk dec nows fnows fd fn).st.written = s.written
            ∧ (streamTranscribe s chunk dec nows fnows fd fn).st.seg_index = s.seg_index)
        ∧ (s.out_dir ≠ [] →
            (streamTranscribe s chunk dec nows fnows fd fn).st.written = s.written
              ++ [(wavPath s.out_dir s.prefixName s.seg_index,
                    (if chunk = [] then s.seg_bytes else s.seg_bytes ++ [chunk]).flatten)]
            ∧ (streamTranscribe s chunk dec nows fnows fd fn).st.seg_index
                = s.seg_index + 1)) := by
  by_cases hch : chunk = []
  · simp only [streamTranscribe, if_pos hch]
    by_cases hsb : s.seg_bytes = []
    · rw [flush_idle s fd fn hsb]
      refine ⟨by simp [ConstPreserved], by simp, ?_, ?_, ?_⟩
      · intro _
        simp [hch, hsb]
      · intro _ h
        exact absurd hsb h
      · intro seg hseg
        simp at hseg
    · have hflush : flush s fd fn
          = finalizeSegment (if s.ring ≠ [] then { s with ring := [] } else s)
              (if s.ring ≠ [] then pyStrip fd else []) fn := by
        by_cases hr : s.ring ≠ []
        · rw [flush_of_ring_ne s fd fn hsb hr, if_pos hr, if_pos hr]
        · rw [flush_of_ring_empty s fd fn hsb hr, if_neg hr, if_neg hr]
      have hsegeq : (if s.ring ≠ [] then { s with ring := [] } else s).seg_bytes
          = s.seg_bytes := by
        split_ifs <;> rfl
      by_cases hfl : s.seg_bytes.flatten = []
      · rw [hflush, finalizeSegment_empty _ _ _ (by rw [hsegeq]; exact hfl)]
        refine ⟨?_, ?_, ?_, ?_, ?_⟩
        · unfold ConstPreserved
          split_ifs <;> simp
        · split_ifs <;> simp
        · intro _
          constructor
          · split_ifs <;> simp
          constructor
          · split_ifs <;> simp
          constructor
          · split_ifs <;> simp
          · split_ifs <;> rfl
        · intro _ _ h
          exact absurd hfl h
        · intro seg hseg
          simp at hseg
      · by_cases hdir : s.out_dir = []
        · rw [hflush, finalizeSegment_of_ne_nodir _ _ _ (by rw [hsegeq]; exact hfl)
            (by split_ifs <;> exact hdir)]
          refine ⟨?_, ?_, ?_, ?_, ?_⟩
          · unfold ConstPreserved
            split_ifs <;> simp
          · split_ifs <;> simp
          · intro h
            simp at h
          · intro _ _ _
            simp
          · intro seg hseg
            simp only [Option.some.injEq] at hseg
            subst hseg
            refine ⟨?_, ?_, ?_, ?_, ?_, ?_, ?_⟩
            · split_ifs <;> simp
            · split_ifs <;> simp
            · split_ifs <;> simp
            · split_ifs <;> simp
            · intro h
              exact absurd hch h
            · intro _
              constructor
              · split_ifs <;> simp
              · split_ifs <;> simp
            · intro h
              exact absurd hdir h
        · rw [hflush, finalizeSegment_of_ne _ _ _ (by rw [hsegeq]; exact hfl)
            (by split_ifs <;> exact hdir)]
          refine ⟨?_, ?_, ?_, ?_, ?_⟩
          · unfold ConstPreserved
            split_ifs <;> simp
          · split_ifs <;> simp
          · intro h
            simp at h
          · intro _ _ _
            simp
          · intro seg hseg
            simp only [Option.some.injEq] at hseg
            subst hseg
            refine ⟨?_, ?_, ?_, ?_, ?_, ?_, ?_⟩
            · split_ifs <;> simp
            · split_ifs <;> simp
            · split_ifs <;> simp
            · split_ifs <;> simp
            · intro h
              exact absurd hch h
            · intro h
              exact absurd h hdir
            · intro _
              constructor
              · split_ifs <;> simp [hch]
              · split_ifs <;> simp
  · simp only [streamTranscribe, if_neg hch]
    obtain ⟨L1, L2, L3, L4, L5⟩ :=
      streamLoop_facts s.chunk_bytes s.overlap_bytes dec nows fnows (s.ring ++ chunk)
        ((s.ring ++ chunk).length + s.chunk_bytes.natAbs + 1) 0 0 none
        { s with seg_bytes := s.seg_bytes ++ [chunk] }
    unfold ConstPreserved at L1
    refine ⟨?_, ?_, ?_, ?_, ?_⟩
    · unfold ConstPreserved
      simp only at L1
      exact ⟨by simp_all, by simp_all, by simp_all, by simp_all, by simp_all,
        by simp_all, by simp_all, by simp_all, by simp_all⟩
    · simpa using L2
    · intro hnone
      obtain ⟨n1, n2, n3, n4⟩ := L4 hnone
      refine ⟨by simpa using n1, by simpa using n3, by simpa using n4, ?_⟩
      simpa using n2
    · intro h
      exact absurd h hch
    · intro seg hseg
      obtain ⟨f0, f1, f2, f3, f4, f5, f6, f7⟩ := L5 seg hseg
      refine ⟨by simpa using f1, ?_, by simpa using f2, by simpa using f4, ?_, ?_, ?_⟩
      · rw [f3, f2]
      · intro _
        simpa using f5
      · intro hdir
        have := f6 (by simpa using hdir)
        exact ⟨by simpa using this.1, by simpa using this.2.1⟩
      · intro hdir
        obtain ⟨w1, w2, w3⟩ := f7 (by simpa using hdir)
        exact ⟨by simpa using w1, by simpa using w2⟩

lemma runCalls_est : ∀ (ins : List CallIn) (s : Transcriber),
    (runCalls s ins).1.estimated_end_time
      = s.estimated_end_time + ((runCalls s ins).2.2 : ℚ) * s.step_time_sec
    ∧ (runCalls s ins).1.step_time_sec = s.step_time_sec := by
  intro ins
  induction ins with
  | nil =>
    intro s
    simp [runCalls]
  | cons c cs ih =>
    intro s
    obtain ⟨K1, K2, _, _, _⟩ := call_spec s c.chunk c.dec c.nows c.fnows c.flushDec c.flushNow
    obtain ⟨ih1, ih2⟩ :=
      ih (streamTranscribe s c.chunk c.dec c.nows c.fnows c.flushDec c.flushNow).st
    have hstep : (streamTranscribe s c.chunk c.dec c.nows c.fnows
        c.flushDec c.flushNow).st.step_time_sec = s.step_time_sec := K1.2.2.1
    constructor
    · simp only [runCalls]
      rw [ih1, K2, hstep]
      push_cast
      ring
    · simp only [runCalls]
      rw [ih2, hstep]

/-- End point of a chain of segments starting at `t`. -/
def chainEnd (t : ℚ) : List Segment → ℚ
  | [] => t
  | seg :: rest => chainEnd seg.endTime rest

lemma runCalls_chain : ∀ (ins : List CallIn) (s : Transcriber),
    Chained s.seg_start_time (runCalls s ins).2.1
    ∧ (runCalls s ins).1.seg_start_time
        = chainEnd s.seg_start_time (runCalls s ins).2.1 := by
  intro ins
  induction ins with
  | nil =>
    intro s
    exact ⟨trivial, rfl⟩
  | cons c cs ih =>
    intro s
    obtain ⟨_, _, K3, _, K5⟩ := call_spec s c.chunk c.dec c.nows c.fnows c.flushDec c.flushNow
    obtain ⟨ih1, ih2⟩ :=
      ih (streamTranscribe s c.chunk c.dec c.nows c.fnows c.flushDec c.flushNow).st
    cases hfin : (streamTranscribe s c.chunk c.dec c.nows c.fnows
        c.flushDec c.flushNow).finalized with
    | none =>
      obtain ⟨n1, _, _, _⟩ := K3 hfin
      constructor
      · simp only [runCalls, hfin, Option.toList_none, List.nil_append]
        rw [← n1]
        exact ih1
      · simp only [runCalls, hfin, Option.toList_none, List.nil_append]
        rw [ih2, n1]
    | some seg =>
      obtain ⟨f1, f2, _, _, _, _, _⟩ := K5 seg hfin
      constructor
      · simp only [runCalls, hfin, Option.toList_some, List.singleton_append]
        exact ⟨f1, by rw [f2]; exact ih1⟩
      · simp only [runCalls, hfin, Option.toList_some, List.singleton_append, chainEnd]
        rw [ih2, f2]

lemma chained_get :
    ∀ (l : List Segment) (t : ℚ) (i : ℕ) (a b : Segment),
      Chained t l → l.get? i = some a → l.get? (i + 1) = some b →
      a.endTime = b.startTime := by
  intro l
  induction l with
  | nil =>
    intro t i a b _ ha _
    simp at ha
  | cons seg rest ih =>
    intro t i a b hc ha hb
    cases i with
    | zero =>
      simp only [List.get?_cons_zero, Option.some.injEq] at ha
      subst ha
      simp only [List.get?_cons_succ] at hb
      cases rest with
      | nil => simp at hb
      | cons seg2 rest2 =>
        simp only [List.get?_cons_zero, Option.some.injEq] at hb
        subst hb
        exact (hc.2.1).symm
    | succ i =>
      simp only [List.get?_cons_succ] at ha hb
      exact ih seg.endTime i a b hc.2 ha hb

/-- Naming invariant of the export directory: paths written so far are the
indexed names `1 … k` in order and the next index is `k + 1`. -/
def PathsOk (s : Transcriber) : Prop :=
  s.written.map Prod.fst
      = (List.range s.written.length).map (fun k => wavPath s.out_dir s.prefixName (k + 1))
  ∧ s.seg_index = s.written.length + 1

lemma runCalls_paths : ∀ (ins : List CallIn) (s : Transcriber),
    PathsOk s → PathsOk (runCalls s ins).1 := by
  intro ins
  induction ins with
  | nil =>
    intro s hp
    exact hp
  | cons c cs ih =>
    intro s hp
    obtain ⟨K1, _, K3, _, K5⟩ := call_spec s c.chunk c.dec c.nows c.fnows c.flushDec c.flushNow
    have hdir : (streamTranscribe s c.chunk c.dec c.nows c.fnows
        c.flushDec c.flushNow).st.out_dir = s.out_dir := K1.2.2.2.2.2.2.2.1
    have hpfx : (streamTranscribe s c.chunk c.dec c.nows c.fnows
        c.flushDec c.flushNow).st.prefixName = s.prefixName := K1.2.2.2.2.2.2.2.2
    simp only [runCalls]
    apply ih
    cases hfin : (streamTranscribe s c.chunk c.dec c.nows c.fnows
        c.flushDec c.flushNow).finalized with
    | none =>
      obtain ⟨_, n2, n3, _⟩ := K3 hfin
      exact ⟨by rw [n2, hdir, hpfx]; exact hp.1, by rw [n3, n2]; exact hp.2⟩
    | some seg =>
      obtain ⟨_, _, _, _, _, fnil, fdir⟩ := K5 seg hfin
      by_cases hd : s.out_dir = []
      · obtain ⟨w1, w2⟩ := fnil hd
        exact ⟨by rw [w1, hdir, hpfx]; exact hp.1, by rw [w2, w1]; exact hp.2⟩
      · obtain ⟨w1, w2⟩ := fdir hd
        constructor
        · rw [w1, hdir, hpfx, List.map_append, hp.1, List.length_append]
          simp only [List.map_cons, List.map_nil, List.length_cons, List.length_nil]
          rw [hp.2]
          rw [List.range_succ, List.map_append]
          simp
        · rw [w2, w1, hp.2, List.length_append]
          simp

lemma flatten_ne_of_entries {l : List Bytes} (hne : l ≠ []) (he : ∀ x ∈ l, x ≠ []) :
    l.flatten ≠ [] := by
  cases l with
  | nil => exact absurd rfl hne
  | cons x rest =>
    have hx : x ≠ [] := he x (by simp)
    simp only [List.flatten_cons]
    intro hcontra
    rw [List.append_eq_nil] at hcontra
    exact hx hcontra.1

lemma runCalls_prov : ∀ (ins : List CallIn) (s : Transcriber) (hist : List Bytes),
    s.seg_bytes <:+ hist → (∀ x ∈ s.seg_bytes, x ≠ []) →
    ∀ pr ∈ (runCalls s ins).1.written,
      pr ∈ s.written
      ∨ ∃ a b, pr.2 = (((hist ++ ins.map CallIn.chunk).take b).drop a).flatten := by
  intro ins
  induction ins with
  | nil =>
    intro s hist _ _ pr hpr
    exact Or.inl hpr
  | cons c cs ih =>
    intro s hist hsuf hent pr hpr
    obtain ⟨_, _, K3, K4, K5⟩ := call_spec s c.chunk c.dec c.nows c.fnows c.flushDec c.flushNow
    -- the chunks list seen by the inductive step
    have hall : hist ++ (c :: cs).map CallIn.chunk
        = (hist ++ [c.chunk]) ++ cs.map CallIn.chunk := by
      simp
    -- invariant after the call
    have hnext : (streamTranscribe s c.chunk c.dec c.nows c.fnows
          c.flushDec c.flushNow).st.seg_bytes <:+ hist ++ [c.chunk]
        ∧ (∀ x ∈ (streamTranscribe s c.chunk c.dec c.nows c.fnows
            c.flushDec c.flushNow).st.seg_bytes, x ≠ []) := by
      cases hfin : (streamTranscribe s c.chunk c.dec c.nows c.fnows
          c.flushDec c.flushNow).finalized with
      | some seg =>
        have hsb := (K5 seg hfin).2.2.2.1
        rw [hsb]
        exact ⟨List.nil_suffix, by simp⟩
      | none =>
        obtain ⟨_, _, _, n4⟩ := K3 hfin
        by_cases hch : c.chunk = []
        · rw [if_pos hch] at n4
          have hsb0 : s.seg_bytes = [] := by
            by_contra hne
            have := K4 hch hne (flatten_ne_of_entries hne hent)
            rw [hfin] at this
            simp at this
          rw [n4, hsb0]
          exact ⟨List.nil_suffix, by simp⟩
        · rw [if_neg hch] at n4
          obtain ⟨t, ht⟩ := hsuf
          rw [n4]
          constructor
          · exact ⟨t, by rw [← List.append_assoc, ht]⟩
          · intro x hx
            rw [List.mem_append] at hx
            rcases hx with hx | hx
            · exact hent x hx
            · simp only [List.mem_singleton] at hx
              subst hx
              exact hch
    -- the artifacts added by this call are flattenings of a slice
    have hdelta : ∀ q ∈ (streamTranscribe s c.chunk c.dec c.nows c.fnows
          c.flushDec c.flushNow).st.written,
        q ∈ s.written
        ∨ ∃ a b, q.2 = (((hist ++ (c :: cs).map CallIn.chunk).take b).drop a).flatten := by
      intro q hq
      cases hfin : (streamTranscribe s c.chunk c.dec c.nows c.fnows
          c.flushDec c.flushNow).finalized with
      | none =>
        obtain ⟨_, n2, _, _⟩ := K3 hfin
        rw [n2] at hq
        exact Or.inl hq
      | some seg =>
        obtain ⟨_, _, _, _, _, fnil, fdir⟩ := K5 seg hfin
        by_cases hd : s.out_dir = []
        · rw [(fnil hd).1] at hq
          exact Or.inl hq
        · rw [(fdir hd).1, List.mem_append] at hq
          rcases hq with hq | hq
          · exact Or.inl hq
          · simp only [List.mem_singleton] at hq
            subst hq
            right
            by_cases hch : c.chunk = []
            · rw [if_pos hch]
              obtain ⟨t, ht⟩ := hsuf
              refine ⟨t.length, hist.length, ?_⟩
              have e1 : (hist ++ (c :: cs).map CallIn.chunk).take hist.length = hist :=
                List.take_left hist _
              rw [e1, ← ht, List.drop_left]
            · rw [if_neg hch]
              obtain ⟨t, ht⟩ := hsuf
              refine ⟨t.length, hist.length + 1, ?_⟩
              have e0 : hist ++ (c :: cs).map CallIn.chunk
                  = (hist ++ [c.chunk]) ++ cs.map CallIn.chunk := by simp
              have e1 : (hist ++ (c :: cs).map CallIn.chunk).take (hist.length + 1)
                  = hist ++ [c.chunk] := by
                rw [e0]
                exact List.take_left' (by simp)
              rw [e1]
              have e2 : t ++ (s.seg_bytes ++ [c.chunk]) = hist ++ [c.chunk] := by
                rw [← List.append_assoc, ht]
              rw [← e2, List.drop_left]
    -- combine with the inductive hypothesis on the remaining calls
    simp only [runCalls] at hpr
    have := ih (streamTranscribe s c.chunk c.dec c.nows c.fnows
        c.flushDec c.flushNow).st (hist ++ [c.chunk]) hnext.1 hnext.2 pr hpr
    rcases this with hmem | ⟨a, b, hab⟩
    · exact hdelta pr hmem
    · right
      refine ⟨a, b, ?_⟩
      rw [hall]
      exact hab

/-- Definitional form of the finalize predicate, for rewriting the loop's
inline condition into the named one. -/
lemma finalizeTrigger_eq_def (maxU stallMs minU estEnd segStart now lastChange : ℚ)
    (stripped : Text) :
    (maxU ≤ estEnd - segStart
      ∨ (stallMs ≤ (now - lastChange) * 1000 ∧ minU ≤ estEnd - segStart)
      ∨ ((puncts.any fun p => stripped.contains p) = true ∧ 1 < estEnd - segStart))
    = finalizeTrigger maxU stallMs minU estEnd segStart now lastChange stripped := rfl

lemma finalizeSegment_ring (s : Transcriber) (t : Text) (now : ℚ) :
    (finalizeSegment s t now).1.ring = s.ring := by
  by_cases h : s.seg_bytes.flatten = []
  · rw [finalizeSegment_empty s t now h]
  · by_cases hd : s.out_dir = []
    · rw [finalizeSegment_of_ne_nodir s t now h hd]
    · rw [finalizeSegment_of_ne s t now h hd]

lemma runCalls_const : ∀ (ins : List CallIn) (s : Transcriber),
    (runCalls s ins).1.out_dir = s.out_dir
    ∧ (runCalls s ins).1.prefixName = s.prefixName := by
  intro ins
  induction ins with
  | nil =>
    intro s
    exact ⟨rfl, rfl⟩
  | cons c cs ih =>
    intro s
    obtain ⟨K1, _, _, _, _⟩ := call_spec s c.chunk c.dec c.nows c.fnows c.flushDec c.flushNow
    obtain ⟨ih1, ih2⟩ :=
      ih (streamTranscribe s c.chunk c.dec c.nows c.fnows c.flushDec c.flushNow).st
    exact ⟨by simp only [runCalls]; rw [ih1]; exact K1.2.2.2.2.2.2.2.1,
      by simp only [runCalls]; rw [ih2]; exact K1.2.2.2.2.2.2.2.2⟩

lemma streamLoop_count_le (cb ob : ℤ) (dec : ℕ → Text) (nows fnows : ℕ → ℚ)
    (buf : Bytes) (hcb : 1 ≤ cb) (hob : 0 ≤ ob) (hlt : ob < cb) :
    ∀ (fuel i pos : ℕ) (em : Option Text) (s : Transcriber),
      (streamLoop cb ob dec nows fnows buf fuel i pos em s).windows.length
        ≤ countW (buf.length - pos) cb.toNat (pyStep cb ob) := by
  intro fuel
  induction fuel with
  | zero =>
    intro i pos em s
    simp [streamLoop]
  | succ fuel ih =>
    intro i pos em s
    by_cases hg : (pos : ℤ) + cb ≤ (buf.length : ℤ)
    · have hstep1 : 1 ≤ pyStep cb ob := pyStep_pos cb ob
      have hstepc : pyStep cb ob ≤ cb.toNat := by
        rw [pyStep_eq hob hlt]
        omega
      have hcw := countW_step hstep1 hstepc (by omega : cb.toNat ≤ buf.length - pos)
      simp only [streamLoop, if_pos hg]
      split_ifs with htr
      · simp only [List.length_cons, List.length_nil]
        omega
      · simp only [List.length_cons]
        have hrec := ih (i + 1) (pos + pyStep cb ob)
          (updateBlock (nows i) (dec i) em
            { s with estimated_end_time := s.estimated_end_time + s.step_time_sec }).2
          (updateBlock (nows i) (dec i) em
            { s with estimated_end_time := s.estimated_end_time + s.step_time_sec }).1
        have e : buf.length - (pos + pyStep cb ob) = buf.length - pos - pyStep cb ob := by
          omega
        rw [e] at hrec
        omega
    · simp [streamLoop, hg]

end Helpers

section Claims

/-- C1: at a window processed by the window loop of `stream_transcribe`
(loop guard satisfied; the utterance buffer is non-empty, which
`stream_transcribe` guarantees by appending the non-empty chunk),
a finalize is triggered at that window if and only if the spec's three-way
predicate holds: `too_long`, or `stalled` gated by `min_utt_sec`, or
punctuation in the stripped decoded text gated by a duration above one
second.  On a trigger the call finalizes with the stripped text and returns
immediately: the triggering window is the only window processed from this
position, and the carry is set past the consumed step.  A call returns at
most one finalized segment by the shape of the result (`Option Segment`). -/
theorem C1_finalize_predicate (cb ob : ℤ) (dec : ℕ → Text) (nows fnows : ℕ → ℚ)
    (buf : Bytes) (fuel i pos : ℕ) (em : Option Text) (s : Transcriber)
    (hg : (pos : ℤ) + cb ≤ (buf.length : ℤ))
    (hne : ¬ s.seg_bytes.flatten = []) :
    (((streamLoop cb ob dec nows fnows buf (fuel + 1) i pos em s).finalized.isSome = true
        ∧ (streamLoop cb ob dec nows fnows buf (fuel + 1) i pos em s).windows.length = 1)
      ↔ finalizeTrigger s.max_utt_sec s.stall_ms s.min_utt_sec
          (s.estimated_end_time + s.step_time_sec) s.seg_start_time (nows i)
          (if dec i ≠ s.lastPartialText then nows i else s.last_change_t)
          (pyStrip (dec i)))
    ∧ (finalizeTrigger s.max_utt_sec s.stall_ms s.min_utt_sec
          (s.estimated_end_time + s.step_time_sec) s.seg_start_time (nows i)
          (if dec i ≠ s.lastPartialText then nows i else s.last_change_t)
          (pyStrip (dec i)) →
        (streamLoop cb ob dec nows fnows buf (fuel + 1) i pos em s).windows
            = [pySlice buf (pos : ℤ) ((pos : ℤ) + cb)]
        ∧ ((streamLoop cb ob dec nows fnows buf (fuel + 1) i pos em s).finalized.map
              Segment.text) = some (pyStrip (dec i))
        ∧ (streamLoop cb ob dec nows fnows buf (fuel + 1) i pos em s).st.ring
            = buf.drop (pos + pyStep cb ob)) := by
  simp only [streamLoop, if_pos hg]
  obtain ⟨ucb, uob, ust, uring, umax, ustall, upmi, umin, useg, ustart, uest,
    udir, upfx, uidx, uwr, ulct⟩ :=
    updateBlock_spec (nows i) (dec i) em
      { s with estimated_end_time := s.estimated_end_time + s.step_time_sec }
  simp only at ucb uob ust uring umax ustall upmi umin useg ustart uest udir upfx uidx uwr ulct
  have hfe : ¬ ((updateBlock (nows i) (dec i) em
      { s with estimated_end_time
        := s.estimated_end_time + s.step_time_sec }).1).seg_bytes.flatten = [] := by
    rw [useg]
    exact hne
  simp only [umax, ustall, umin, uest, ustart, ulct, finalizeTrigger_eq_def]
  by_cases htr : finalizeTrigger s.max_utt_sec s.stall_ms s.min_utt_sec
      (s.estimated_end_time + s.step_time_sec) s.seg_start_time (nows i)
      (if dec i ≠ s.lastPartialText then nows i else s.last_change_t) (pyStrip (dec i))
  · rw [if_pos htr]
    by_cases hdu : ((updateBlock (nows i) (dec i) em
        { s with estimated_end_time
          := s.estimated_end_time + s.step_time_sec }).1).out_dir = []
    · rw [finalizeSegment_of_ne_nodir _ _ _ hfe hdu]
      exact ⟨⟨fun _ => htr, fun _ => ⟨rfl, rfl⟩⟩, fun _ => ⟨rfl, rfl, rfl⟩⟩
    · rw [finalizeSegment_of_ne _ _ _ hfe hdu]
      exact ⟨⟨fun _ => htr, fun _ => ⟨rfl, rfl⟩⟩, fun _ => ⟨rfl, rfl, rfl⟩⟩
  · rw [if_neg htr]
    constructor
    · constructor
      · rintro ⟨hsome, hlen⟩
        exfalso
        simp only [List.length_cons] at hlen
        obtain ⟨seg, hseg⟩ := Option.isSome_iff_exists.mp hsome
        have hfacts := streamLoop_facts cb ob dec nows fnows buf fuel (i + 1)
          (pos + pyStep cb ob)
          (updateBlock (nows i) (dec i) em
            { s with estimated_end_time := s.estimated_end_time + s.step_time_sec }).2
          (updateBlock (nows i) (dec i) em
            { s with estimated_end_time := s.estimated_end_time + s.step_time_sec }).1
        have h1 := (hfacts.2.2.2.2 seg hseg).1
        omega
      · intro h
        exact absurd h htr
    · intro h
      exact absurd h htr

/-- C1 witness: a concrete window (4-byte chunks, 1 Hz, decode `"a."`)
where the punctuation clause fires: the loop finalizes at the first window
with the stripped text and stops there. -/
theorem C1_finalize_predicate_witness :
    (streamLoop 4 0 (fun _ => ['a', '.']) (fun _ => 0) (fun _ => 0)
        [1, 2, 3, 4, 5, 6, 7, 8] (12 + 1) 0 0 none
        { init cfgW 0 with seg_bytes := [[1, 2, 3, 4, 5, 6, 7, 8]] }).finalized.isSome
      = true
    ∧ (streamLoop 4 0 (fun _ => ['a', '.']) (fun _ => 0) (fun _ => 0)
        [1, 2, 3, 4, 5, 6, 7, 8] (12 + 1) 0 0 none
        { init cfgW 0 with seg_bytes := [[1, 2, 3, 4, 5, 6, 7, 8]] }).windows
      = [[1, 2, 3, 4]]
    ∧ ((streamLoop 4 0 (fun _ => ['a', '.']) (fun _ => 0) (fun _ => 0)
        [1, 2, 3, 4, 5, 6, 7, 8] (12 + 1) 0 0 none
        { init cfgW 0 with seg_bytes := [[1, 2, 3, 4, 5, 6, 7, 8]] }).finalized.map
          Segment.text) = some ['a', '.'] := by
  have hguard : ((0 : ℕ) : ℤ) + 4 ≤ (([1, 2, 3, 4, 5, 6, 7, 8] : Bytes).length : ℤ) := by
    decide
  have hflat : ¬ ({ init cfgW 0 with seg_bytes := [[1, 2, 3, 4, 5, 6, 7, 8]] }
      : Transcriber).seg_bytes.flatten = [] := by
    decide
  have h := C1_finalize_predicate 4 0 (fun _ => ['a', '.']) (fun _ => 0) (fun _ => 0)
    [1, 2, 3, 4, 5, 6, 7, 8] 12 0 0 none
    { init cfgW 0 with seg_bytes := [[1, 2, 3, 4, 5, 6, 7, 8]] } hguard hflat
  have htr : finalizeTrigger
      ({ init cfgW 0 with seg_bytes := [[1, 2, 3, 4, 5, 6, 7, 8]] }
        : Transcriber).max_utt_sec
      ({ init cfgW 0 with seg_bytes := [[1, 2, 3, 4, 5, 6, 7, 8]] }
        : Transcriber).stall_ms
      ({ init cfgW 0 with seg_bytes := [[1, 2, 3, 4, 5, 6, 7, 8]] }
        : Transcriber).min_utt_sec
      (({ init cfgW 0 with seg_bytes := [[1, 2, 3, 4, 5, 6, 7, 8]] }
          : Transcriber).estimated_end_time
        + ({ init cfgW 0 with seg_bytes := [[1, 2, 3, 4, 5, 6, 7, 8]] }
            : Transcriber).step_time_sec)
      ({ init cfgW 0 with seg_bytes := [[1, 2, 3, 4, 5, 6, 7, 8]] }
        : Transcriber).seg_start_time 0
      (if (fun _ : ℕ => ['a', '.']) 0
          ≠ ({ init cfgW 0 with seg_bytes := [[1, 2, 3, 4, 5, 6, 7, 8]] }
              : Transcriber).lastPartialText
        then 0
        else ({ init cfgW 0 with seg_bytes := [[1, 2, 3, 4, 5, 6, 7, 8]] }
            : Transcriber).last_change_t)
      (pyStrip ['a', '.']) := by
    decide
  obtain ⟨w1, w2, w3⟩ := h.2 htr
  refine ⟨(h.1.mpr htr).1, ?_, by simpa using w2⟩
  rw [w1]
  decide

/-- C2 counterexample to the claim as stated: when a finalize triggers at
the first window, the call returns immediately after one extracted window,
although the formula `floor((L - chunk_bytes)/step_bytes) + 1` predicts
two for this buffer. -/
theorem C2_count_counterexample :
    (streamTranscribe (init cfgW 0) [1, 2, 3, 4, 5, 6, 7, 8] (fun _ => ['a', '.'])
        (fun _ => 0) (fun _ => 0) [] 0).windows.length = 1
    ∧ countW ((init cfgW 0).ring ++ [1, 2, 3, 4, 5, 6, 7, 8]).length
        (init cfgW 0).chunk_bytes.toNat
        ((init cfgW 0).chunk_bytes - (init cfgW 0).overlap_bytes).toNat = 2
    ∧ (streamTranscribe (init cfgW 0) [1, 2, 3, 4, 5, 6, 7, 8] (fun _ => ['a', '.'])
        (fun _ => 0) (fun _ => 0) [] 0).finalized.isSome = true := by
  exact ⟨by decide, by decide, by decide⟩

/-- C2 (amended: every call extracts at most
`floor((L - chunk_bytes)/step_bytes) + 1` windows — a finalize stops
extraction at the triggering window, which can leave the count strictly
below the formula, see the counterexample, but never above it — and on a
call with no finalize the formula and losslessness hold exactly): with a
valid byte geometry (`1 ≤ chunk_bytes`, `0 ≤ overlap_bytes < chunk_bytes`)
and a non-empty chunk, the extracted-window count is bounded by the
formula, and a call that finalizes nothing extracts exactly
`floor((L - chunk_bytes)/step_bytes) + 1` windows when `L ≥ chunk_bytes`
(else zero), each window being the `chunk_bytes`-long slice starting at
`j·step_bytes`, with the retained carry exactly the suffix after the last
window and every byte position in a window or in the carry. -/
theorem C2_windowing (s : Transcriber) (chunk : Bytes) (dec : ℕ → Text)
    (nows fnows : ℕ → ℚ) (fd : Text) (fn : ℚ)
    (hcb : 1 ≤ s.chunk_bytes) (hob : 0 ≤ s.overlap_bytes)
    (hlt : s.overlap_bytes < s.chunk_bytes) (hch : chunk ≠ []) :
    (streamTranscribe s chunk dec nows fnows fd fn).windows.length
        ≤ countW (s.ring ++ chunk).length s.chunk_bytes.toNat
            (s.chunk_bytes - s.overlap_bytes).toNat
    ∧ ((streamTranscribe s chunk dec nows fnows fd fn).finalized = none →
      (streamTranscribe s chunk dec nows fnows fd fn).windows.length
          = countW (s.ring ++ chunk).length s.chunk_bytes.toNat
              (s.chunk_bytes - s.overlap_bytes).toNat
      ∧ (∀ j w, (streamTranscribe s chunk dec nows fnows fd fn).windows.get? j = some w →
        w = ((s.ring ++ chunk).drop (j * (s.chunk_bytes - s.overlap_bytes).toNat)).take
              s.chunk_bytes.toNat
        ∧ w.length = s.chunk_bytes.toNat)
    ∧ (streamTranscribe s chunk dec nows fnows fd fn).st.ring
        = (s.ring ++ chunk).drop
            ((streamTranscribe s chunk dec nows fnows fd fn).windows.length
              * (s.chunk_bytes - s.overlap_bytes).toNat)
    ∧ (∀ k, k < (s.ring ++ chunk).length →
        (∃ j, j < (streamTranscribe s chunk dec nows fnows fd fn).windows.length
          ∧ j * (s.chunk_bytes - s.overlap_bytes).toNat ≤ k
          ∧ k < j * (s.chunk_bytes - s.overlap_bytes).toNat + s.chunk_bytes.toNat)
        ∨ (streamTranscribe s chunk dec nows fnows fd fn).windows.length
            * (s.chunk_bytes - s.overlap_bytes).toNat ≤ k)) := by
  have hstep : pyStep s.chunk_bytes s.overlap_bytes
      = (s.chunk_bytes - s.overlap_bytes).toNat := by
    unfold pyStep
    rw [max_eq_right (by omega : (1 : ℤ) ≤ s.chunk_bytes - s.overlap_bytes)]
  constructor
  · have hb := streamLoop_count_le s.chunk_bytes s.overlap_bytes dec nows fnows
      (s.ring ++ chunk) hcb hob hlt
      ((s.ring ++ chunk).length + s.chunk_bytes.natAbs + 1) 0 0 none
      { s with seg_bytes := s.seg_bytes ++ [chunk] }
    rw [hstep] at hb
    simp only [streamTranscribe, if_neg hch]
    simpa using hb
  intro hnf
  have hflat : ¬ ({ s with seg_bytes := s.seg_bytes ++ [chunk] } :
      Transcriber).seg_bytes.flatten = [] := by
    simp only [List.flatten_append, List.flatten_cons, List.flatten_nil, List.append_nil]
    intro hcontra
    rw [List.append_eq_nil] at hcontra
    exact hch hcontra.2
  simp only [streamTranscribe, if_neg hch] at hnf ⊢
  obtain ⟨c1, c2, c3⟩ :=
    streamLoop_nofin s.chunk_bytes s.overlap_bytes dec nows fnows (s.ring ++ chunk)
      hcb hob hlt ((s.ring ++ chunk).length + s.chunk_bytes.natAbs + 1) 0 0 none
      { s with seg_bytes := s.seg_bytes ++ [chunk] }
      (by omega) hflat hnf
  have hstep1 : 1 ≤ (s.chunk_bytes - s.overlap_bytes).toNat := by omega
  have hstepc : (s.chunk_bytes - s.overlap_bytes).toNat ≤ s.chunk_bytes.toNat := by omega
  rw [hstep] at c1 c2 c3
  refine ⟨by simpa using c1, ?_, by simpa using c3, ?_⟩
  · intro j w hw
    obtain ⟨hww, hwb⟩ := c2 j w hw
    constructor
    · simpa using hww
    · rw [hww]
      simp only [List.length_take, List.length_drop]
      omega
  · intro k hk
    set N := (streamLoop s.chunk_bytes s.overlap_bytes dec nows fnows (s.ring ++ chunk)
        ((s.ring ++ chunk).length + s.chunk_bytes.natAbs + 1) 0 0 none
        { s with seg_bytes := s.seg_bytes ++ [chunk] }).windows.length with hN
    by_cases hcov : N * (s.chunk_bytes - s.overlap_bytes).toNat ≤ k
    · exact Or.inr hcov
    · left
      refine ⟨k / (s.chunk_bytes - s.overlap_bytes).toNat, ?_, ?_, ?_⟩
      · rw [Nat.div_lt_iff_lt_mul (by omega)]
        omega
      · exact Nat.div_mul_le_self k _
      · have hmod : k % (s.chunk_bytes - s.overlap_bytes).toNat
            < (s.chunk_bytes - s.overlap_bytes).toNat := Nat.mod_lt k (by omega)
        have hdm := Nat.div_add_mod k (s.chunk_bytes - s.overlap_bytes).toNat
        have hcomm : k / (s.chunk_bytes - s.overlap_bytes).toNat
              * (s.chunk_bytes - s.overlap_bytes).toNat
            = (s.chunk_bytes - s.overlap_bytes).toNat
              * (k / (s.chunk_bytes - s.overlap_bytes).toNat) := Nat.mul_comm _ _
        omega

/-- C2 witness: the no-finalize call (decode always empty) attains the
count formula and the carry characterization exactly; the finalizing call
(decode `"a."`) respects the bound, extracting at most the two windows the
formula allows (it extracts one, see the counterexample). -/
theorem C2_windowing_witness :
    (streamTranscribe (init cfgW 0) [1, 2, 3, 4, 5, 6, 7, 8] (fun _ => [])
        (fun _ => 0) (fun _ => 0) [] 0).windows.length
      = countW ((init cfgW 0).ring ++ [1, 2, 3, 4, 5, 6, 7, 8]).length
          (init cfgW 0).chunk_bytes.toNat
          ((init cfgW 0).chunk_bytes - (init cfgW 0).overlap_bytes).toNat
    ∧ (streamTranscribe (init cfgW 0) [1, 2, 3, 4, 5, 6, 7, 8] (fun _ => [])
        (fun _ => 0) (fun _ => 0) [] 0).st.ring
      = ((init cfgW 0).ring ++ [1, 2, 3, 4, 5, 6, 7, 8]).drop
          ((streamTranscribe (init cfgW 0) [1, 2, 3, 4, 5, 6, 7, 8] (fun _ => [])
              (fun _ => 0) (fun _ => 0) [] 0).windows.length
            * ((init cfgW 0).chunk_bytes - (init cfgW 0).overlap_bytes).toNat)
    ∧ (streamTranscribe (init cfgW 0) [1, 2, 3, 4, 5, 6, 7, 8] (fun _ => ['a', '.'])
        (fun _ => 0) (fun _ => 0) [] 0).windows.length
      ≤ countW ((init cfgW 0).ring ++ [1, 2, 3, 4, 5, 6, 7, 8]).length
          (init cfgW 0).chunk_bytes.toNat
          ((init cfgW 0).chunk_bytes - (init cfgW 0).overlap_bytes).toNat := by
  have h := C2_windowing (init cfgW 0) [1, 2, 3, 4, 5, 6, 7, 8] (fun _ => [])
    (fun _ => 0) (fun _ => 0) [] 0 (by decide) (by decide) (by decide) (by decide)
  have h2 := C2_windowing (init cfgW 0) [1, 2, 3, 4, 5, 6, 7, 8] (fun _ => ['a', '.'])
    (fun _ => 0) (fun _ => 0) [] 0 (by decide) (by decide) (by decide) (by decide)
  obtain ⟨e1, _, e3, _⟩ := h.2 (by decide)
  exact ⟨e1, e3, h2.1⟩

/-- C3: the audio clock is deterministic and content-independent.  From a
fresh controller, after the run has processed `N` windows the clock reads
exactly `N * step_time_sec`; each call advances the clock by exactly
`step_time_sec` per window it processes; and with a non-negative step (any
configuration with `overlap_sec < chunk_sec`) the clock never decreases. -/
theorem C3_audio_clock :
    (∀ (cfg : Config) (t0 : ℚ) (ins : List CallIn),
      (runCalls (init cfg t0) ins).1.estimated_end_time
        = ((runCalls (init cfg t0) ins).2.2 : ℚ) * (init cfg t0).step_time_sec)
    ∧ (∀ (s : Transcriber) (chunk : Bytes) (dec : ℕ → Text) (nows fnows : ℕ → ℚ)
        (fd : Text) (fn : ℚ),
      (streamTranscribe s chunk dec nows fnows fd fn).st.estimated_end_time
        = s.estimated_end_time
          + ((streamTranscribe s chunk dec nows fnows fd fn).windows.length : ℚ)
            * s.step_time_sec)
    ∧ (∀ (s : Transcriber) (chunk : Bytes) (dec : ℕ → Text) (nows fnows : ℕ → ℚ)
        (fd : Text) (fn : ℚ), 0 ≤ s.step_time_sec →
      s.estimated_end_time
        ≤ (streamTranscribe s chunk dec nows fnows fd fn).st.estimated_end_time) := by
  refine ⟨?_, ?_, ?_⟩
  · intro cfg t0 ins
    have h := (runCalls_est ins (init cfg t0)).1
    rw [h]
    have h0 : (init cfg t0).estimated_end_time = 0 := rfl
    rw [h0, zero_add]
  · intro s chunk dec nows fnows fd fn
    exact (call_spec s chunk dec nows fnows fd fn).2.1
  · intro s chunk dec nows fnows fd fn h
    have h2 := (call_spec s chunk dec nows fnows fd fn).2.1
    rw [h2]
    have h3 : (0 : ℚ)
        ≤ ((streamTranscribe s chunk dec nows fnows fd fn).windows.length : ℚ)
          * s.step_time_sec :=
      mul_nonneg (by positivity) h
    linarith

/-- C3 witness: the witness configuration has a non-negative step and the
clock does not decrease over a concrete call. -/
theorem C3_audio_clock_witness :
    0 ≤ (init cfgW 0).step_time_sec
    ∧ (init cfgW 0).estimated_end_time
        ≤ (streamTranscribe (init cfgW 0) [1, 2, 3, 4] (fun _ => [])
            (fun _ => 0) (fun _ => 0) [] 0).st.estimated_end_time := by
  exact ⟨by decide, C3_audio_clock.2.2 (init cfgW 0) [1, 2, 3, 4] (fun _ => [])
    (fun _ => 0) (fun _ => 0) [] 0 (by decide)⟩

/-- C4: segments finalized by one controller instance are contiguous:
each segment's end time equals the next segment's start time, because
`_finalize_segment` sets the next `seg_start_time` to the finalized
segment's end. -/
theorem C4_contiguity (s : Transcriber) (ins : List CallIn) (i : ℕ) (a b : Segment)
    (ha : (runCalls s ins).2.1.get? i = some a)
    (hb : (runCalls s ins).2.1.get? (i + 1) = some b) :
    a.endTime = b.startTime :=
  chained_get (runCalls s ins).2.1 s.seg_start_time i a b (runCalls_chain ins s).1 ha hb

/-- Two calls that each finalize one segment (punctuation in the decode). -/
def insW : List CallIn :=
  [⟨[1, 2, 3, 4], fun _ => ['a', '.'], fun _ => 0, fun _ => 0, [], 0⟩,
   ⟨[5, 6, 7, 8], fun _ => ['b', '.'], fun _ => 0, fun _ => 0, [], 0⟩]

/-- C4 witness: a run producing two segments, `(0,2)` then `(2,4)`; their
boundary times agree. -/
theorem C4_contiguity_witness :
    (runCalls (init cfgW 0) insW).2.1.get? 0
        = some ⟨0, 2, ['a', '.'],
            some (wavPath ['a', 'u', 'd', 'i', 'o', 's'] ['s', 'e', 'g'] 1)⟩
    ∧ (runCalls (init cfgW 0) insW).2.1.get? 1
        = some ⟨2, 4, ['b', '.'],
            some (wavPath ['a', 'u', 'd', 'i', 'o', 's'] ['s', 'e', 'g'] 2)⟩
    ∧ Segment.endTime ⟨0, 2, ['a', '.'],
          some (wavPath ['a', 'u', 'd', 'i', 'o', 's'] ['s', 'e', 'g'] 1)⟩
        = Segment.startTime ⟨2, 4, ['b', '.'],
            some (wavPath ['a', 'u', 'd', 'i', 'o', 's'] ['s', 'e', 'g'] 2)⟩ := by
  refine ⟨by decide, by decide, ?_⟩
  exact C4_contiguity (init cfgW 0) insW 0 _ _ (by decide) (by decide)

/-- C5 counterexample: a finalize inside `stream_transcribe` leaves the
unconsumed suffix in the carry buffer, which is not empty — the carry is
not reset as at construction. -/
theorem C5_carry_counterexample :
    (streamTranscribe (init cfgW 0) [1, 2, 3, 4, 5, 6, 7, 8] (fun _ => ['a', '.'])
        (fun _ => 0) (fun _ => 0) [] 0).finalized.isSome = true
    ∧ (streamTranscribe (init cfgW 0) [1, 2, 3, 4, 5, 6, 7, 8] (fun _ => ['a', '.'])
        (fun _ => 0) (fun _ => 0) [] 0).st.ring = [5, 6, 7, 8]
    ∧ ([5, 6, 7, 8] : Bytes) ≠ [] := ⟨by decide, by decide, by decide⟩

/-- C5 (amended: after a finalize triggered inside `stream_transcribe` the
carry holds the unconsumed suffix of the merged buffer — everything past
the windows consumed in the call — which is in general non-empty; it is
the per-utterance accumulated buffer that is cleared, and only a
flush-driven finalize leaves the carry empty). -/
theorem C5_carry_after_finalize :
    (∀ (s : Transcriber) (chunk : Bytes) (dec : ℕ → Text) (nows fnows : ℕ → ℚ)
        (fd : Text) (fn : ℚ) (seg : Segment), chunk ≠ [] →
      (streamTranscribe s chunk dec nows fnows fd fn).finalized = some seg →
      (streamTranscribe s chunk dec nows fnows fd fn).st.ring
        = (s.ring ++ chunk).drop
            ((streamTranscribe s chunk dec nows fnows fd fn).windows.length
              * pyStep s.chunk_bytes s.overlap_bytes))
    ∧ (∀ (s : Transcriber) (fd : Text) (fn : ℚ), ¬ s.seg_bytes = [] →
        (flush s fd fn).1.ring = []) := by
  constructor
  · intro s chunk dec nows fnows fd fn seg hch hseg
    exact ((call_spec s chunk dec nows fnows fd fn).2.2.2.2 seg hseg).2.2.2.2.1 hch
  · intro s fd fn hs
    by_cases hr : s.ring ≠ []
    · rw [flush_of_ring_ne s fd fn hs hr, finalizeSegment_ring]
    · rw [flush_of_ring_empty s fd fn hs hr, finalizeSegment_ring]
      push_neg at hr
      exact hr

/-- C5 witness: the concrete finalizing call keeps the 4-byte suffix as
carry, and a flush with pending audio leaves the carry empty. -/
theorem C5_carry_after_finalize_witness :
    (streamTranscribe (init cfgW 0) [1, 2, 3, 4, 5, 6, 7, 8] (fun _ => ['a', '.'])
        (fun _ => 0) (fun _ => 0) [] 0).st.ring
      = ((init cfgW 0).ring ++ [1, 2, 3, 4, 5, 6, 7, 8]).drop
          ((streamTranscribe (init cfgW 0) [1, 2, 3, 4, 5, 6, 7, 8] (fun _ => ['a', '.'])
              (fun _ => 0) (fun _ => 0) [] 0).windows.length
            * pyStep (init cfgW 0).chunk_bytes (init cfgW 0).overlap_bytes)
    ∧ (flush { init cfgW 0 with seg_bytes := [[7]] } [] 0).1.ring = [] := by
  constructor
  · exact C5_carry_after_finalize.1 (init cfgW 0) [1, 2, 3, 4, 5, 6, 7, 8]
      (fun _ => ['a', '.']) (fun _ => 0) (fun _ => 0) [] 0
      ⟨0, 2, ['a', '.'], some (wavPath ['a', 'u', 'd', 'i', 'o', 's'] ['s', 'e', 'g'] 1)⟩
      (by decide) (by decide)
  · exact C5_carry_after_finalize.2 { init cfgW 0 with seg_bytes := [[7]] } [] 0
      (by decide)

/-- A configuration with `overlap_sec > chunk_sec`, which §6 of the spec
says construction must reject. -/
def cfgBadOverlap : Config := { sample_rate := 16000, chunk_sec := 1, overlap_sec := 3 / 2 }

/-- A configuration with a negative duration, which §6 of the spec says
construction must reject. -/
def cfgBadNegative : Config := { sample_rate := 16000, chunk_sec := -1 }

/-- C6 (code bug): `__init__` performs no validation.  A configuration
with `overlap_sec > chunk_sec` is accepted and yields
`overlap_bytes > chunk_bytes` with a negative `step_time_sec`; a negative
`chunk_sec` is accepted and yields a negative `chunk_bytes`.  The claim
(construction rejects such configurations) is contradicted by the code. -/
theorem C6_init_accepts_invalid_config :
    (init cfgBadOverlap 0).chunk_bytes = 32000
    ∧ (init cfgBadOverlap 0).overlap_bytes = 48000
    ∧ (init cfgBadOverlap 0).step_time_sec = -(1 / 2)
    ∧ (init cfgBadNegative 0).chunk_bytes = -32000 := by
  exact ⟨by decide, by decide, by decide, by decide⟩

/-- C7: over any run of one controller instance from construction, the
exported artifact paths are exactly `audios/seg_0001.wav`,
`audios/seg_0002.wav`, … in write order — 4-digit zero-padded indices
starting at 1, strictly increasing with no gaps — and the next index is
always the number of artifacts written plus one (it advances exactly once
per artifact and is never reused). -/
theorem C7_artifact_naming (cfg : Config) (t0 : ℚ) (ins : List CallIn) :
    (runCalls (init cfg t0) ins).1.written.map Prod.fst
      = (List.range (runCalls (init cfg t0) ins).1.written.length).map
          (fun k => wavPath ['a', 'u', 'd', 'i', 'o', 's'] ['s', 'e', 'g'] (k + 1))
    ∧ (runCalls (init cfg t0) ins).1.seg_index
        = (runCalls (init cfg t0) ins).1.written.length + 1 := by
  have h0 : PathsOk (init cfg t0) := ⟨rfl, rfl⟩
  have h := runCalls_paths ins (init cfg t0) h0
  obtain ⟨hd, hp⟩ := runCalls_const ins (init cfg t0)
  constructor
  · have h1 := h.1
    rw [hd, hp] at h1
    exact h1
  · exact h.2

/-- C8: a flush with no accumulated bytes returns no segment, performs no
write and leaves the state untouched (hence it is idempotent and safe to
repeat); likewise `_finalize_segment` with an empty accumulated buffer
returns no segment and writes nothing. -/
theorem C8_idle_flush_noop :
    (∀ (s : Transcriber) (fd : Text) (fn : ℚ), s.seg_bytes = [] →
      flush s fd fn = (s, none))
    ∧ (∀ (s : Transcriber) (t : Text) (now : ℚ), s.seg_bytes.flatten = [] →
      finalizeSegment s t now = (s, none)) :=
  ⟨fun s fd fn h => flush_idle s fd fn h,
   fun s t now h => finalizeSegment_empty s t now h⟩

/-- C8 witness: an idle flush and an empty-buffer finalize on a freshly
constructed controller return the state unchanged with no segment. -/
theorem C8_idle_flush_noop_witness :
    flush (init cfgW 0) ['x'] 5 = (init cfgW 0, none)
    ∧ finalizeSegment (init cfgW 0) ['x'] 5 = (init cfgW 0, none) := by
  exact ⟨C8_idle_flush_noop.1 (init cfgW 0) ['x'] 5 (by decide),
    C8_idle_flush_noop.2 (init cfgW 0) ['x'] 5 (by decide)⟩

/-- C9: a finalize clears the accumulated utterance buffer, a non-finalizing
call appends exactly the chunk argument (never the carry), and consequently
every artifact written after a finalize is a flattening of a contiguous
slice of the subsequently fed chunks — the carried-over bytes (which are
re-fed to the engine as window contents) appear in no later artifact. -/
theorem C9_carry_excluded_from_artifacts :
    (∀ (s : Transcriber) (chunk : Bytes) (dec : ℕ → Text) (nows fnows : ℕ → ℚ)
        (fd : Text) (fn : ℚ), chunk ≠ [] →
      ((streamTranscribe s chunk dec nows fnows fd fn).finalized.isSome = true →
        (streamTranscribe s chunk dec nows fnows fd fn).st.seg_bytes = [])
      ∧ ((streamTranscribe s chunk dec nows fnows fd fn).finalized = none →
        (streamTranscribe s chunk dec nows fnows fd fn).st.seg_bytes
          = s.seg_bytes ++ [chunk]))
    ∧ (∀ (s : Transcriber) (ins : List CallIn), s.seg_bytes = [] →
        ∀ pr ∈ (runCalls s ins).1.written,
          pr ∈ s.written
          ∨ ∃ a b, pr.2 = (((ins.map CallIn.chunk).take b).drop a).flatten) := by
  constructor
  · intro s chunk dec nows fnows fd fn hch
    obtain ⟨_, _, K3, _, K5⟩ := call_spec s chunk dec nows fnows fd fn
    constructor
    · intro hsome
      obtain ⟨seg, hseg⟩ := Option.isSome_iff_exists.mp hsome
      exact (K5 seg hseg).2.2.2.1
    · intro hnone
      have h := (K3 hnone).2.2.2
      rwa [if_neg hch] at h
  · intro s ins hs pr hpr
    have h := runCalls_prov ins s [] (by rw [hs]) (by rw [hs]; simp) pr hpr
    simpa using h

/-- One call that finalizes one artifact from its own chunk. -/
def insW1 : List CallIn :=
  [⟨[1, 2, 3, 4], fun _ => ['a', '.'], fun _ => 0, fun _ => 0, [], 0⟩]

/-- C9 witness: the finalizing call clears the utterance buffer, and the
artifact written during a concrete run is a slice of the run's chunks. -/
theorem C9_carry_excluded_witness :
    (streamTranscribe (init cfgW 0) [1, 2, 3, 4, 5, 6, 7, 8] (fun _ => ['a', '.'])
        (fun _ => 0) (fun _ => 0) [] 0).st.seg_bytes = []
    ∧ ((wavPath ['a', 'u', 'd', 'i', 'o', 's'] ['s', 'e', 'g'] 1, ([1, 2, 3, 4] : Bytes))
          ∈ (init cfgW 0).written
        ∨ ∃ a b, ([1, 2, 3, 4] : Bytes)
            = (((insW1.map CallIn.chunk).take b).drop a).flatten) := by
  constructor
  · exact (C9_carry_excluded_from_artifacts.1 (init cfgW 0) [1, 2, 3, 4, 5, 6, 7, 8]
      (fun _ => ['a', '.']) (fun _ => 0) (fun _ => 0) [] 0 (by decide)).1 (by decide)
  · exact C9_carry_excluded_from_artifacts.2 (init cfgW 0) insW1 (by decide)
      (wavPath ['a', 'u', 'd', 'i', 'o', 's'] ['s', 'e', 'g'] 1, [1, 2, 3, 4]) (by decide)

/-- C10: the window loop always terminates, for every configuration —
including `overlap_bytes ≥ chunk_bytes`, which construction accepts: the
advance step `max(1, chunk_bytes - overlap_bytes)` is at least one byte,
so the position strictly increases each iteration.  Concretely: at most
`fuel` windows are processed, a full call processes at most
`len(buffer) + |chunk_bytes| + 1` windows, and once the fuel budget covers
`len(buffer) + |chunk_bytes| + 1 - pos` iterations, adding more budget
does not change the result — the loop has already run to completion. -/
theorem C10_window_loop_terminates :
    (∀ cb ob : ℤ, 1 ≤ pyStep cb ob)
    ∧ (∀ (cb ob : ℤ) (dec : ℕ → Text) (nows fnows : ℕ → ℚ) (buf : Bytes)
        (fuel i pos : ℕ) (em : Option Text) (s : Transcriber),
        (streamLoop cb ob dec nows fnows buf fuel i pos em s).windows.length ≤ fuel)
    ∧ (∀ (s : Transcriber) (chunk : Bytes) (dec : ℕ → Text) (nows fnows : ℕ → ℚ)
        (fd : Text) (fn : ℚ),
        (streamTranscribe s chunk dec nows fnows fd fn).windows.length
          ≤ (s.ring ++ chunk).length + s.chunk_bytes.natAbs + 1)
    ∧ (∀ (cb ob : ℤ) (dec : ℕ → Text) (nows fnows : ℕ → ℚ) (buf : Bytes)
        (f1 f2 i pos : ℕ) (em : Option Text) (s : Transcriber),
        buf.length + cb.natAbs + 1 ≤ f1 + pos →
        buf.length + cb.natAbs + 1 ≤ f2 + pos →
        streamLoop cb ob dec nows fnows buf f1 i pos em s
          = streamLoop cb ob dec nows fnows buf f2 i pos em s) := by
  refine ⟨pyStep_pos, ?_, ?_, ?_⟩
  · intro cb ob dec nows fnows buf fuel i pos em s
    exact (streamLoop_facts cb ob dec nows fnows buf fuel i pos em s).2.2.1
  · intro s chunk dec nows fnows fd fn
    by_cases hch : chunk = []
    · simp [streamTranscribe, hch]
    · simp only [streamTranscribe, if_neg hch]
      exact (streamLoop_facts s.chunk_bytes s.overlap_bytes dec nows fnows
        (s.ring ++ chunk) ((s.ring ++ chunk).length + s.chunk_bytes.natAbs + 1) 0 0 none
        { s with seg_bytes := s.seg_bytes ++ [chunk] }).2.2.1
  · intro cb ob dec nows fnows buf f1 f2 i pos em s h1 h2
    exact streamLoop_fuel_stable cb ob dec nows fnows buf f1 f2 i pos em s h1 h2

/-- Configuration whose overlap exceeds its chunk length (accepted by
construction; the loop still advances by one byte per window). -/
def cfgOv : Config := { sample_rate := 1, chunk_sec := 2, overlap_sec := 4, max_utt_sec := 100 }

/-- C10 witness: with `chunk_bytes = 4 < overlap_bytes = 8` the advance
step is clamped to one and the loop's result is stable once the fuel
covers the buffer. -/
theorem C10_window_loop_terminates_witness :
    1 ≤ pyStep 4 8
    ∧ streamLoop 4 8 (fun _ => []) (fun _ => 0) (fun _ => 0) [1, 2, 3, 4, 5, 6] 11 0 0 none
        (init cfgOv 0)
      = streamLoop 4 8 (fun _ => []) (fun _ => 0) (fun _ => 0) [1, 2, 3, 4, 5, 6] 20 0 0 none
        (init cfgOv 0) := by
  exact ⟨C10_window_loop_terminates.1 4 8,
    C10_window_loop_terminates.2.2.2 4 8 (fun _ => []) (fun _ => 0) (fun _ => 0)
      [1, 2, 3, 4, 5, 6] 11 20 0 0 none (init cfgOv 0) (by decide) (by decide)⟩

end Claims


end MultiAsr
